import Mathlib

/-!
# Verification of the StopHunterVS analytical core (src/StopHunter.py)

Shallow embedding of the analytical pipeline of `StopHunterVS`:
zone identification (`identify_liquidity_pools`, `_calculate_vwap`,
`_find_volume_clusters`), confidence scoring (`_calculate_confidence`,
built on `scipy.stats.percentileofscore`), trap-signal evaluation
(`detect_stop_hunt`) and the multi-symbol scanner (`scan_market`).

Modelling conventions:
* Prices and volumes are rationals (ℚ); the Python floats are idealised as
  exact decimal arithmetic.
* A bar keeps only the fields the core reads: Low, High, Close, Volume.
* A fetched series is `Option (List Bar)`: `none` models `get_data`
  returning `None` (download error or empty frame, both are caught there).
* The mutable analyzer field `self.liquidity_zones` dict is threaded
  explicitly as an association list `ZoneCache`; dict assignment
  `d[k] = v` is `dictSet` (replace in place, else append).
* `np.log(close).diff()` produces a NaN first element followed by the log
  returns; `percentileofscore` only ever compares these values, and for
  positive closes the order of log returns agrees with the order of the
  close ratios, so a return is embedded as `Option ℚ`: `none` for the NaN
  slot and `some (close_t / close_pred)` otherwise.  NaN comparisons are
  `false`, matching IEEE and `scipy` (pre-1.9 rank-kind semantics).
-/

/-- One OHLCV bar restricted to the fields the core reads
(`Low`, `High`, `Close`, `Volume`). -/
structure Bar where
  low : ℚ
  high : ℚ
  close : ℚ
  volume : ℚ
deriving DecidableEq, Repr

/-- Direction argument of `_calculate_confidence` (the strings down / up). -/
inductive Direction where
  | down
  | up
deriving DecidableEq, Repr

/-- The type field of an emitted signal dict. -/
inductive SignalType where
  | bear_trap
  | bull_trap
deriving DecidableEq, Repr

/-- One signal dict appended by `detect_stop_hunt`. -/
structure Signal where
  type : SignalType
  entry : ℚ
  stop : ℚ
  target : ℚ
  confidence : ℚ
deriving DecidableEq, Repr

/-- The per-symbol zone dict stored in `self.liquidity_zones[ticker]`. -/
structure LiquidityZone where
  recent_low : ℚ
  recent_high : ℚ
  high_volume_nodes : List ℚ
  vwap : ℚ
deriving DecidableEq, Repr

/-- `self.liquidity_zones`: a Python dict, embedded as an association list
in insertion order. -/
abbrev ZoneCache := List (String × LiquidityZone)

/-- Python dict assignment `d[k] = v`: overwrite the entry in place if the
key is present, otherwise append it. -/
def dictSet {α : Type} (m : List (String × α)) (k : String) (v : α) :
    List (String × α) :=
  if m.any (fun p => p.1 == k) then
    m.map (fun p => if p.1 == k then (k, v) else p)
  else
    m ++ [(k, v)]

/-- Round to nearest integer, ties to even: the rounding used by Python /
numpy `round` on the (idealised) float values. -/
def roundHalfEven (q : ℚ) : ℤ :=
  let f := ⌊q⌋
  let r := q - (f : ℚ)
  if r < 1/2 then f
  else if 1/2 < r then f + 1
  else if 2 ∣ f then f else f + 1

/-- `round(x, 2)` of the source. -/
def round2 (q : ℚ) : ℚ := (roundHalfEven (q * 100) : ℚ) / 100

/-- `pandas.Series.mean` over a list of rationals (callers only use it on
non-empty series; on `[]` the embedding yields the junk value `0/0 = 0`). -/
def listMean (l : List ℚ) : ℚ := l.sum / (l.length : ℚ)

/-- the minimum of the Low column over the bar window. -/
def minLow (bars : List Bar) : ℚ :=
  match bars.map Bar.low with
  | [] => 0
  | x :: xs => xs.foldl min x

/-- the maximum of the High column over the bar window. -/
def maxHigh (bars : List Bar) : ℚ :=
  match bars.map Bar.high with
  | [] => 0
  | x :: xs => xs.foldl max x

/-- `get_data`: the source downloads a frame, raises on an empty one and
catches every exception, returning `None`.  The embedding normalises a raw
fetch result so that an empty series also becomes `none`. -/
def get_data (raw : Option (List Bar)) : Option (List Bar) :=
  match raw with
  | none => none
  | some [] => none
  | some (b :: bs) => some (b :: bs)

/-- `_calculate_vwap`:
the sum of Volume times (High + Low + Close)/3 over the window, divided by the sum of Volume.
When the total volume is zero the float code produces NaN; in ℚ the
division by zero yields the junk value `0`. -/
def _calculate_vwap (bars : List Bar) : ℚ :=
  (bars.map (fun b => b.volume * (b.high + b.low + b.close) / 3)).sum /
    (bars.map Bar.volume).sum

/-- `np.linspace lo hi num`: `num` evenly spaced points from `lo` to `hi`
(exact in ℚ, so the endpoint needs no special casing). -/
def np_linspace (lo hi : ℚ) (num : ℕ) : List ℚ :=
  (List.range num).map (fun (i : ℕ) => lo + (hi - lo) * (i : ℚ) / ((num - 1 : ℕ) : ℚ))

/-- Whether the Close of bar `b` falls into bin `i` of the edge list `edges`,
under `np.histogram` semantics: bins are half-open `[e_i, e_{i+1})` except
the last one, which is closed. -/
def inBin (edges : List ℚ) (i : ℕ) (b : Bar) : Bool :=
  decide (edges.getD i 0 ≤ b.close) &&
    (if i = edges.length - 2 then decide (b.close ≤ edges.getD (i + 1) 0)
     else decide (b.close < edges.getD (i + 1) 0))

/-- `np.histogram` of the Close column with the Volume column as weights for a
monotone non-decreasing edge list: per bin, the summed Volume of the bars
whose Close falls into the bin (values outside the edge span count
nowhere).  This is the cumulative/searchsorted semantics of numpy,
including the equal-edges degenerate case, where every half-open bin is
empty and the closed last bin picks up the values equal to the edge. -/
def np_histogram (bars : List Bar) (edges : List ℚ) : List ℚ :=
  (List.range (edges.length - 1)).map
    (fun i => ((bars.filter (inBin edges i)).map Bar.volume).sum)

/-- Stable insertion (ascending by key) used to embed `np.argsort`. -/
def insertAsc (key : ℕ → ℚ) (i : ℕ) : List ℕ → List ℕ
  | [] => [i]
  | j :: rest => if key j ≤ key i then j :: insertAsc key i rest
                 else i :: j :: rest

/-- `np.argsort l`: the indices `0, …, l.length - 1` sorted ascending by
value.  the default numpy sort leaves the order of equal values unspecified;
the embedding fixes the stable (by index) convention, and no theorem below
depends on the order among equal values. -/
def np_argsort (l : List ℚ) : List ℕ :=
  (List.range l.length).foldl (fun acc i => insertAsc (fun k => l.getD k 0) i acc) []

/-- `_find_volume_clusters`:
`bins = np.linspace(Low.min(), High.max(), 20)` (20 points, hence 19 bins);
`hist, edges = np.histogram(Close, bins=bins, weights=Volume)`;
`return [round(edge, 2) for edge in edges[np.argsort(hist)[-3:]]]`.
The `except` branch fires exactly when `np.histogram` rejects the edge
list, i.e. when `Low.min() > High.max()` (strictly decreasing edges);
equal edges are accepted by numpy. -/
def _find_volume_clusters (bars : List Bar) : List ℚ :=
  let lo := minLow bars
  let hi := maxHigh bars
  if hi < lo then []
  else
    let edges := np_linspace lo hi 20
    let hist := np_histogram bars edges
    ((np_argsort hist).drop (hist.length - 3)).map (fun i => round2 (edges.getD i 0))

/-- The zone dict built by `identify_liquidity_pools` from a fetched
window. -/
def identify_zone (data : List Bar) : LiquidityZone :=
  { recent_low := minLow data
    recent_high := maxHigh data
    high_volume_nodes := _find_volume_clusters data
    vwap := _calculate_vwap data }

/-- `identify_liquidity_pools`: on a failed fetch return `{}` (embedded as
`none`) leaving the cache alone; otherwise store the freshly computed zone
in `self.liquidity_zones[ticker]` and return it. -/
def identify_liquidity_pools (dataOpt : Option (List Bar)) (ticker : String)
    (cache : ZoneCache) : Option LiquidityZone × ZoneCache :=
  match get_data dataOpt with
  | none => (none, cache)
  | some data =>
      (some (identify_zone data), dictSet cache ticker (identify_zone data))

/-- NaN-aware `<` on embedded returns (any comparison with NaN is false). -/
def retLt : Option ℚ → Option ℚ → Bool
  | some a, some b => decide (a < b)
  | _, _ => false

/-- NaN-aware `≤` on embedded returns. -/
def retLe : Option ℚ → Option ℚ → Bool
  | some a, some b => decide (a ≤ b)
  | _, _ => false

/-- `scipy.stats.percentileofscore(a, score)` with the default
rank kind: (left + right + (1 if right > left else 0)) * 50 / n,
where `left` counts `a < score` and `right` counts `a ≤ score`; an empty
array yields `100.0`.  NaN entries (and a NaN score) compare as false. -/
def percentileofscore (a : List (Option ℚ)) (score : Option ℚ) : ℚ :=
  let n := a.length
  if n = 0 then 100
  else
    let left := (a.filter (fun r => retLt r score)).length
    let right := (a.filter (fun r => retLe r score)).length
    ((left + right + (if left < right then 1 else 0) : ℕ) : ℚ) * 50 / (n : ℚ)

/-- Helper of `logReturns`: the consecutive close ratios. -/
def closeRatios : ℚ → List ℚ → List (Option ℚ)
  | _, [] => []
  | prev, c :: rest => some (c / prev) :: closeRatios c rest

/-- `np.log` of the Close column followed by `diff()`: a NaN first slot followed by the log
returns.  A return `ln c_t − ln c_{t−1}` is embedded as the ratio
`c_t / c_{t−1}`, which for positive closes is ordered exactly like the log
return — and the scorer only ever compares returns. -/
def logReturns (closes : List ℚ) : List (Option ℚ) :=
  match closes with
  | [] => []
  | c :: rest => none :: closeRatios c rest

/-- `_calculate_confidence(df, direction)`:
returns = the log-diff of the Close column, then
percentileofscore(returns, last return) / 100 for down and one
minus that for up.  On an empty series indexing the last return raises
(`none` here); on a one-bar series the last "return" is the NaN slot and a
plain number is still produced. -/
def _calculate_confidence (closes : List ℚ) (direction : Direction) : Option ℚ :=
  match (logReturns closes).getLast? with
  | none => none
  | some rLast =>
      match direction with
      | .down => some (percentileofscore (logReturns closes) rLast / 100)
      | .up => some (1 - percentileofscore (logReturns closes) rLast / 100)

/-- The confidence field as computed at the call sites:
`min(90, self._calculate_confidence(intraday, direction) * 100)`.
The `getD 0` default is unreachable: both call sites pass a non-empty
series. -/
def confidenceOf (closes : List ℚ) (direction : Direction) : ℚ :=
  min 90 (((_calculate_confidence closes direction).getD 0) * 100)

/-- The bear-trap dict appended by `detect_stop_hunt` when the bear-trap
condition holds. -/
def bearSignalOf (lz : LiquidityZone) (intraday : List Bar) (current : Bar) :
    Signal :=
  { type := .bear_trap
    entry := round2 current.close
    stop := round2 (lz.recent_low * (995/1000))
    target := round2 lz.vwap
    confidence := confidenceOf (intraday.map Bar.close) .down }

/-- The bull-trap dict appended by `detect_stop_hunt` when the bull-trap
condition holds. -/
def bullSignalOf (lz : LiquidityZone) (intraday : List Bar) (current : Bar) :
    Signal :=
  { type := .bull_trap
    entry := round2 current.close
    stop := round2 (lz.recent_high * (1005/1000))
    target := round2 lz.vwap
    confidence := confidenceOf (intraday.map Bar.close) .up }

/-- The trap evaluation at the heart of `detect_stop_hunt` (lines 91–118),
as a function of the zone and the intraday series; `current` is
`intraday.iloc[-1]`.  An empty series cannot reach this point (`get_data`
turns it into `None` upstream), embedded as the `[]` branch. -/
def evaluate_signals (lz : LiquidityZone) (intraday : List Bar) : List Signal :=
  match intraday.getLast? with
  | none => []
  | some current =>
      (if current.low ≤ lz.recent_low * (1005/1000) ∧
          lz.recent_low < current.close ∧
          listMean (intraday.map Bar.volume) * (18/10) < current.volume then
        [bearSignalOf lz intraday current]
      else []) ++
      (if lz.recent_high * (995/1000) ≤ current.high ∧
          current.close < lz.recent_high ∧
          listMean (intraday.map Bar.volume) * (18/10) < current.volume then
        [bullSignalOf lz intraday current]
      else [])

/-- `detect_stop_hunt(ticker)`: fetch the intraday series (`None` → `[]`,
cache untouched); run `identify_liquidity_pools` (which fetches the daily
window and updates the cache on success); `{}` → `[]`; otherwise evaluate
the two traps against the latest intraday bar.  `intradayRaw` / `dailyRaw`
stand for the two fetches of the source. -/
def detect_stop_hunt (intradayRaw dailyRaw : Option (List Bar))
    (ticker : String) (cache : ZoneCache) : List Signal × ZoneCache :=
  match get_data intradayRaw with
  | none => ([], cache)
  | some intraday =>
      let r := identify_liquidity_pools dailyRaw ticker cache
      match r.1 with
      | none => ([], r.2)
      | some lz => (evaluate_signals lz intraday, r.2)

/-- The loop body of `scan_market`, threading the result dict and the zone
cache. -/
def scan_go (intradayOf dailyOf : String → Option (List Bar)) :
    List String → List (String × List Signal) → ZoneCache →
      List (String × List Signal) × ZoneCache
  | [], res, cache => (res, cache)
  | t :: rest, res, cache =>
      let sc := detect_stop_hunt (intradayOf t) (dailyOf t) t cache
      scan_go intradayOf dailyOf rest
        (if sc.1 = [] then res else dictSet res t sc.1) sc.2

/-- `scan_market(tickers)`: run the detector per ticker in order and keep
only the tickers whose signal list is non-empty (`if signals:`). -/
def scan_market (intradayOf dailyOf : String → Option (List Bar))
    (tickers : List String) (cache : ZoneCache) :
    List (String × List Signal) × ZoneCache :=
  scan_go intradayOf dailyOf tickers [] cache

/-! ## Specification-side definitions (for refinement claims) -/

/-- The lower edge of bin `i` when `[lo, hi]` is cut into 19 equal bins
(the spans numpy derives from 20 `linspace` points). -/
def spec_bin_edge (lo hi : ℚ) (i : ℕ) : ℚ := lo + (hi - lo) * (i : ℚ) / 19

/-- Summed Volume of the bars whose Close falls into bin `i` of the
19-bin partition of `[lo, hi]` (half-open bins, last bin closed). -/
def spec_bin_volume (bars : List Bar) (lo hi : ℚ) (i : ℕ) : ℚ :=
  ((bars.filter (fun b =>
      decide (spec_bin_edge lo hi i ≤ b.close) &&
        (if i = 18 then decide (b.close ≤ spec_bin_edge lo hi 19)
         else decide (b.close < spec_bin_edge lo hi (i + 1))))).map Bar.volume).sum

/-- The amended clustering specification: partition `[recentLow, recentHigh]`
into 19 equal-width bins, accumulate per-bin Close volume, select the 3 bins
of highest accumulated volume, and report the *lower* edge of each selected
bin rounded to 2 decimals, ordered from lowest to highest accumulated
volume.  (Shares the `np_argsort` tie convention with the embedding; the
companion statements never depend on the order among equal volumes.) -/
def amended_volume_clusters (bars : List Bar) : List ℚ :=
  let lo := minLow bars
  let hi := maxHigh bars
  if hi < lo then []
  else
    let hist := (List.range 19).map (spec_bin_volume bars lo hi)
    ((np_argsort hist).drop 16).map (fun i => round2 (spec_bin_edge lo hi i))

/-- The clustering as the claim words it: partition `[recentLow, recentHigh]`
into exactly 20 equal-width bins, accumulate per-bin Close volume, select
the 3 bins of highest accumulated volume, and report the *upper* edge of
each selected bin rounded to 2 decimals, ascending by accumulated volume. -/
def claimed_volume_clusters (bars : List Bar) : List ℚ :=
  let lo := minLow bars
  let hi := maxHigh bars
  let w := (hi - lo) / 20
  let hist := (List.range 20).map (fun (i : ℕ) =>
    ((bars.filter (fun b =>
        decide (lo + w * (i : ℚ) ≤ b.close) &&
          (if i = 19 then decide (b.close ≤ hi)
           else decide (b.close < lo + w * ((i : ℚ) + 1))))).map Bar.volume).sum)
  ((np_argsort hist).drop (hist.length - 3)).map
    (fun (i : ℕ) => round2 (lo + w * ((i : ℚ) + 1)))

/-! ## Concrete scenario data (spec §8) -/

/-- The three-bar window of Scenarios A/B:
Low = [100, 98, 99], High = [105, 107, 106], Close = [104, 99, 105],
Volume = [1000, 5000, 2000]. -/
def scenario_window : List Bar :=
  [⟨100, 105, 104, 1000⟩, ⟨98, 107, 99, 5000⟩, ⟨99, 106, 105, 2000⟩]

/-- A Scenario B intraday series: mean volume 8000, latest bar with
Low = 98.3, High = 99.5, Close = 99.0, Volume = 15000. -/
def scenario_b_intraday : List Bar :=
  [⟨99, 101, 100, 4000⟩, ⟨97, 100, 98, 5000⟩, ⟨983/10, 995/10, 99, 15000⟩]

/-- The single signal Scenario B produces: a bear trap with entry 99.00,
stop 97.51, target 102.04 and confidence exactly 200/3. -/
def scenario_b_signal : Signal :=
  { type := .bear_trap
    entry := 99
    stop := 9751/100
    target := 2551/25
    confidence := 200/3 }

/-- An intraday series triggering a bull trap against the Scenario A/B
zone: mean volume 8000, latest bar with High = 106.6 (≥ 107 × 0.995),
Close = 106 (< 107) and Volume = 15000 (> 14400). -/
def scenario_bull_intraday : List Bar :=
  [⟨99, 101, 100, 4000⟩, ⟨97, 100, 98, 5000⟩, ⟨105, 1066/10, 106, 15000⟩]

/-- A degenerate window: every field of the single bar is the price 5. -/
def degenerate_bars : List Bar := [⟨5, 5, 5, 10⟩]

/-- A window whose price range `[1.006, 1.007]` is narrower than the
2-decimal rounding grid. -/
def rounding_bars : List Bar := [⟨1006/1000, 1007/1000, 10065/10000, 100⟩]

/-- A window distinguishing the 19-bin lower-edge clustering of the code
from the 20-bin upper-edge clustering of the claim: range `[0, 19]`,
closes 0.5, 5.5, 10.5 with volumes 10, 20, 30. -/
def cluster_example_bars : List Bar :=
  [⟨0, 19, 1/2, 10⟩, ⟨5, 6, 11/2, 20⟩, ⟨10, 11, 21/2, 30⟩]

/-- Two bars of equal volume 5 for the uniform-weight VWAP witness. -/
def vwap_example_bars : List Bar := [⟨1, 2, 3, 5⟩, ⟨4, 5, 6, 5⟩]

/-- Scenario C intraday fetches: symbol A gets the Scenario A window
(latest volume below threshold), symbol B the Scenario B series. -/
def fetchIntradayC : String → Option (List Bar) :=
  fun s => if s = "A" then some scenario_window
    else if s = "B" then some scenario_b_intraday else none

/-- Scenario C daily fetches: both symbols share the Scenario A/B window. -/
def fetchDailyC : String → Option (List Bar) :=
  fun s => if s = "A" ∨ s = "B" then some scenario_window else none

/-! ## Helper lemmas -/

theorem length_insertAsc (key : ℕ → ℚ) (i : ℕ) :
    ∀ l : List ℕ, (insertAsc key i l).length = l.length + 1 := by
  intro l
  induction l with
  | nil => rfl
  | cons j rest ih =>
      unfold insertAsc
      split
      · simp [ih]
      · simp

theorem mem_insertAsc (key : ℕ → ℚ) (i x : ℕ) :
    ∀ l : List ℕ, x ∈ insertAsc key i l ↔ x = i ∨ x ∈ l := by
  intro l
  induction l with
  | nil => simp [insertAsc]
  | cons j rest ih =>
      unfold insertAsc
      split <;> simp only [List.mem_cons, ih] <;> tauto

theorem length_foldl_insertAsc (key : ℕ → ℚ) :
    ∀ (is : List ℕ) (acc : List ℕ),
      (is.foldl (fun a i => insertAsc key i a) acc).length =
        acc.length + is.length := by
  intro is
  induction is with
  | nil => intro acc; simp
  | cons j rest ih =>
      intro acc
      simp only [List.foldl_cons, ih, length_insertAsc, List.length_cons]
      omega

theorem mem_foldl_insertAsc (key : ℕ → ℚ) (x : ℕ) :
    ∀ (is : List ℕ) (acc : List ℕ),
      x ∈ is.foldl (fun a i => insertAsc key i a) acc ↔ x ∈ acc ∨ x ∈ is := by
  intro is
  induction is with
  | nil => intro acc; simp
  | cons j rest ih =>
      intro acc
      simp only [List.foldl_cons, ih, mem_insertAsc, List.mem_cons]
      tauto

theorem length_np_argsort (l : List ℚ) : (np_argsort l).length = l.length := by
  unfold np_argsort
  rw [length_foldl_insertAsc]
  simp

theorem mem_np_argsort {l : List ℚ} {x : ℕ} (h : x ∈ np_argsort l) :
    x < l.length := by
  unfold np_argsort at h
  rw [mem_foldl_insertAsc] at h
  rcases h with h | h
  · simp at h
  · exact List.mem_range.mp h

theorem np_linspace_length (lo hi : ℚ) (num : ℕ) :
    (np_linspace lo hi num).length = num := by
  unfold np_linspace
  rw [List.length_map, List.length_range]

theorem np_linspace_getD (lo hi : ℚ) {num i : ℕ} (h : i < num) :
    (np_linspace lo hi num).getD i 0 =
      lo + (hi - lo) * (i : ℚ) / ((num - 1 : ℕ) : ℚ) := by
  unfold np_linspace
  rw [List.getD_eq_getElem?_getD, List.getElem?_map, List.getElem?_range h]
  rfl

theorem np_histogram_length (bars : List Bar) (edges : List ℚ) :
    (np_histogram bars edges).length = edges.length - 1 := by
  simp [np_histogram]

theorem filter_length_mono {α : Type} (p q : α → Bool)
    (h : ∀ x, p x = true → q x = true) :
    ∀ l : List α, (l.filter p).length ≤ (l.filter q).length := by
  intro l
  induction l with
  | nil => simp
  | cons a rest ih =>
      simp only [List.filter_cons]
      by_cases hp : p a = true
      · rw [if_pos hp, if_pos (h a hp)]
        simp only [List.length_cons]
        omega
      · rw [if_neg hp]
        by_cases hq : q a = true
        · rw [if_pos hq]
          simp only [List.length_cons]
          omega
        · rw [if_neg hq]
          exact ih

theorem retLt_imp_retLe (r s : Option ℚ) (h : retLt r s = true) :
    retLe r s = true := by
  cases r <;> cases s <;> simp [retLt, retLe] at h ⊢
  exact le_of_lt h

theorem percentileofscore_bounds (a : List (Option ℚ)) (s : Option ℚ) :
    0 ≤ percentileofscore a s ∧ percentileofscore a s ≤ 100 := by
  unfold percentileofscore
  by_cases hn : a.length = 0
  · simp [hn]
  · simp only [hn, if_false]
    set L := (a.filter (fun r => retLt r s)).length with hL
    set R := (a.filter (fun r => retLe r s)).length with hR
    have hLR : L ≤ R := filter_length_mono _ _ (fun x => retLt_imp_retLe x s) a
    have hRn : R ≤ a.length := List.length_filter_le _ a
    have hnpos : (0 : ℚ) < (a.length : ℚ) := by
      have : 0 < a.length := Nat.pos_of_ne_zero hn
      exact_mod_cast this
    constructor
    · positivity
    · rw [div_le_iff₀ hnpos]
      have hsum : (L + R + (if L < R then 1 else 0)) ≤ 2 * a.length := by
        split <;> omega
      calc ((L + R + (if L < R then 1 else 0) : ℕ) : ℚ) * 50
          ≤ ((2 * a.length : ℕ) : ℚ) * 50 := by
            have : ((L + R + (if L < R then 1 else 0) : ℕ) : ℚ)
                ≤ ((2 * a.length : ℕ) : ℚ) := by exact_mod_cast hsum
            nlinarith
        _ = 100 * (a.length : ℚ) := by push_cast; ring
    
theorem calculate_confidence_bounds (closes : List ℚ) (d : Direction) (q : ℚ)
    (h : _calculate_confidence closes d = some q) : 0 ≤ q ∧ q ≤ 1 := by
  unfold _calculate_confidence at h
  cases hlast : (logReturns closes).getLast? with
  | none => rw [hlast] at h; exact absurd h (by simp)
  | some rLast =>
      rw [hlast] at h
      obtain ⟨h0, h100⟩ := percentileofscore_bounds (logReturns closes) rLast
      cases d <;> simp only [Option.some.injEq] at h <;> subst h <;>
        constructor <;> nlinarith

theorem confidenceOf_bounds (closes : List ℚ) (d : Direction) :
    0 ≤ confidenceOf closes d ∧ confidenceOf closes d ≤ 90 := by
  unfold confidenceOf
  constructor
  · apply le_min (by norm_num)
    cases hc : _calculate_confidence closes d with
    | none => simp
    | some q =>
        obtain ⟨h0, _⟩ := calculate_confidence_bounds closes d q hc
        simp only [Option.getD_some]
        nlinarith
  · exact min_le_left _ _

theorem calculate_confidence_isSome (closes : List ℚ) (d : Direction)
    (h : closes ≠ []) :
    ∃ q, _calculate_confidence closes d = some q ∧
      confidenceOf closes d = min 90 (q * 100) := by
  obtain ⟨c, cs, rfl⟩ := List.exists_cons_of_ne_nil h
  have hne : (logReturns (c :: cs)) ≠ [] := by simp [logReturns]
  obtain ⟨rLast, hlast⟩ :=
    Option.isSome_iff_exists.mp (List.getLast?_isSome.mpr hne)
  unfold _calculate_confidence confidenceOf
  unfold _calculate_confidence
  rw [hlast]
  cases d <;> exact ⟨_, rfl, by simp⟩

theorem foldl_min_le_init (xs : List ℚ) : ∀ x : ℚ, xs.foldl min x ≤ x := by
  induction xs with
  | nil => intro x; simp
  | cons y ys ih =>
      intro x
      simp only [List.foldl_cons]
      exact le_trans (ih (min x y)) (min_le_left _ _)

theorem foldl_min_le_mem (xs : List ℚ) :
    ∀ (x y : ℚ), y ∈ xs → xs.foldl min x ≤ y := by
  induction xs with
  | nil => intro x y hy; simp at hy
  | cons z zs ih =>
      intro x y hy
      simp only [List.foldl_cons]
      rcases List.mem_cons.mp hy with rfl | hy
      · exact le_trans (foldl_min_le_init zs (min x y)) (min_le_right _ _)
      · exact ih (min x z) y hy

theorem foldl_min_mem (xs : List ℚ) :
    ∀ x : ℚ, xs.foldl min x = x ∨ xs.foldl min x ∈ xs := by
  induction xs with
  | nil => intro x; left; rfl
  | cons y ys ih =>
      intro x
      simp only [List.foldl_cons]
      rcases ih (min x y) with h | h
      · rcases min_choice x y with hm | hm
        · left; rw [h, hm]
        · right; rw [h, hm]; exact List.mem_cons_self _ _
      · right; exact List.mem_cons_of_mem _ h

theorem foldl_max_init_le (xs : List ℚ) : ∀ x : ℚ, x ≤ xs.foldl max x := by
  induction xs with
  | nil => intro x; simp
  | cons y ys ih =>
      intro x
      simp only [List.foldl_cons]
      exact le_trans (le_max_left _ _) (ih (max x y))

theorem foldl_max_mem_le (xs : List ℚ) :
    ∀ (x y : ℚ), y ∈ xs → y ≤ xs.foldl max x := by
  induction xs with
  | nil => intro x y hy; simp at hy
  | cons z zs ih =>
      intro x y hy
      simp only [List.foldl_cons]
      rcases List.mem_cons.mp hy with rfl | hy
      · exact le_trans (le_max_right _ _) (foldl_max_init_le zs (max x y))
      · exact ih (max x z) y hy

theorem foldl_max_mem (xs : List ℚ) :
    ∀ x : ℚ, xs.foldl max x = x ∨ xs.foldl max x ∈ xs := by
  induction xs with
  | nil => intro x; left; rfl
  | cons y ys ih =>
      intro x
      simp only [List.foldl_cons]
      rcases ih (max x y) with h | h
      · rcases max_choice x y with hm | hm
        · left; rw [h, hm]
        · right; rw [h, hm]; exact List.mem_cons_self _ _
      · right; exact List.mem_cons_of_mem _ h

theorem minLow_le (bars : List Bar) (b : Bar) (hb : b ∈ bars) :
    minLow bars ≤ b.low := by
  unfold minLow
  cases hm : bars.map Bar.low with
  | nil => simp [List.map_eq_nil] at hm; subst hm; simp at hb
  | cons x xs =>
      have : b.low ∈ bars.map Bar.low := List.mem_map_of_mem Bar.low hb
      rw [hm] at this
      rcases List.mem_cons.mp this with h | h
      · rw [← h] at *
        exact foldl_min_le_init xs b.low
      · exact foldl_min_le_mem xs x b.low h

theorem minLow_mem (bars : List Bar) (hne : bars ≠ []) :
    ∃ b ∈ bars, minLow bars = b.low := by
  unfold minLow
  cases hm : bars.map Bar.low with
  | nil => rw [List.map_eq_nil] at hm; exact absurd hm hne
  | cons x xs =>
      have hsub : ∀ y, y ∈ (x :: xs) → ∃ b ∈ bars, y = b.low := by
        intro y hy
        rw [← hm] at hy
        obtain ⟨b, hb, he⟩ := List.mem_map.mp hy
        exact ⟨b, hb, he.symm⟩
      rcases foldl_min_mem xs x with h | h
      · obtain ⟨b, hb, he⟩ := hsub x (List.mem_cons_self _ _)
        exact ⟨b, hb, by show List.foldl min x xs = b.low; rw [h, he]⟩
      · obtain ⟨b, hb, he⟩ := hsub _ (List.mem_cons_of_mem _ h)
        exact ⟨b, hb, he⟩

theorem le_maxHigh (bars : List Bar) (b : Bar) (hb : b ∈ bars) :
    b.high ≤ maxHigh bars := by
  unfold maxHigh
  cases hm : bars.map Bar.high with
  | nil => simp [List.map_eq_nil] at hm; subst hm; simp at hb
  | cons x xs =>
      have : b.high ∈ bars.map Bar.high := List.mem_map_of_mem Bar.high hb
      rw [hm] at this
      rcases List.mem_cons.mp this with h | h
      · rw [← h] at *
        exact foldl_max_init_le xs b.high
      · exact foldl_max_mem_le xs x b.high h

theorem maxHigh_mem (bars : List Bar) (hne : bars ≠ []) :
    ∃ b ∈ bars, maxHigh bars = b.high := by
  unfold maxHigh
  cases hm : bars.map Bar.high with
  | nil => rw [List.map_eq_nil] at hm; exact absurd hm hne
  | cons x xs =>
      have hsub : ∀ y, y ∈ (x :: xs) → ∃ b ∈ bars, y = b.high := by
        intro y hy
        rw [← hm] at hy
        obtain ⟨b, hb, he⟩ := List.mem_map.mp hy
        exact ⟨b, hb, he.symm⟩
      rcases foldl_max_mem xs x with h | h
      · obtain ⟨b, hb, he⟩ := hsub x (List.mem_cons_self _ _)
        exact ⟨b, hb, by show List.foldl max x xs = b.high; rw [h, he]⟩
      · obtain ⟨b, hb, he⟩ := hsub _ (List.mem_cons_of_mem _ h)
        exact ⟨b, hb, he⟩

theorem evaluate_signals_eq (lz : LiquidityZone) (intraday : List Bar)
    (current : Bar) (hlast : intraday.getLast? = some current) :
    evaluate_signals lz intraday =
      (if current.low ≤ lz.recent_low * (1005/1000) ∧
          lz.recent_low < current.close ∧
          listMean (intraday.map Bar.volume) * (18/10) < current.volume then
        [bearSignalOf lz intraday current]
      else []) ++
      (if lz.recent_high * (995/1000) ≤ current.high ∧
          current.close < lz.recent_high ∧
          listMean (intraday.map Bar.volume) * (18/10) < current.volume then
        [bullSignalOf lz intraday current]
      else []) := by
  unfold evaluate_signals
  rw [hlast]

theorem evaluate_signals_none (lz : LiquidityZone) (intraday : List Bar)
    (hlast : intraday.getLast? = none) : evaluate_signals lz intraday = [] := by
  unfold evaluate_signals
  rw [hlast]

theorem mem_evaluate_signals (lz : LiquidityZone) (intraday : List Bar)
    (current : Bar) (hlast : intraday.getLast? = some current) (s : Signal) :
    s ∈ evaluate_signals lz intraday ↔
      ((current.low ≤ lz.recent_low * (1005/1000) ∧
          lz.recent_low < current.close ∧
          listMean (intraday.map Bar.volume) * (18/10) < current.volume) ∧
        s = bearSignalOf lz intraday current) ∨
      ((lz.recent_high * (995/1000) ≤ current.high ∧
          current.close < lz.recent_high ∧
          listMean (intraday.map Bar.volume) * (18/10) < current.volume) ∧
        s = bullSignalOf lz intraday current) := by
  rw [evaluate_signals_eq lz intraday current hlast]
  split_ifs with hb hu hu <;>
    simp only [List.mem_append, List.mem_singleton, List.not_mem_nil, or_false,
      false_or] <;>
    tauto

theorem find_volume_clusters_length (bars : List Bar) :
    (_find_volume_clusters bars).length ≤ 3 := by
  unfold _find_volume_clusters
  dsimp only
  split
  · simp
  · rw [List.length_map, List.length_drop, length_np_argsort,
      np_histogram_length, np_linspace_length]

theorem spec_bin_edge_bounds (lo hi : ℚ) (i : ℕ) (hle : lo ≤ hi)
    (hi19 : i ≤ 19) :
    lo ≤ spec_bin_edge lo hi i ∧ spec_bin_edge lo hi i ≤ hi := by
  unfold spec_bin_edge
  have hc : (i : ℚ) ≤ 19 := by exact_mod_cast hi19
  have hc0 : (0 : ℚ) ≤ (i : ℚ) := by positivity
  constructor <;> nlinarith

theorem np_linspace20_getD_eq (lo hi : ℚ) (i : ℕ) (h : i < 20) :
    (np_linspace lo hi 20).getD i 0 = spec_bin_edge lo hi i := by
  rw [np_linspace_getD lo hi h]
  unfold spec_bin_edge
  norm_num

theorem np_histogram20_eq (bars : List Bar) (lo hi : ℚ) :
    np_histogram bars (np_linspace lo hi 20) =
      (List.range 19).map (spec_bin_volume bars lo hi) := by
  unfold np_histogram
  rw [np_linspace_length]
  have h19 : (20 : ℕ) - 1 = 19 := rfl
  rw [h19]
  apply List.map_congr_left
  intro i him
  rw [List.mem_range] at him
  unfold spec_bin_volume
  congr 1
  congr 1
  apply List.filter_congr
  intro b _
  unfold inBin
  rw [np_linspace_length, np_linspace20_getD_eq lo hi i (by omega)]
  have h202 : (20 : ℕ) - 2 = 18 := rfl
  rw [h202]
  by_cases h18 : i = 18
  · subst h18
    rw [if_pos rfl, if_pos rfl, np_linspace20_getD_eq lo hi 19 (by omega)]
  · rw [if_neg h18, if_neg h18, np_linspace20_getD_eq lo hi (i + 1) (by omega)]

theorem mem_dictSet_key {α : Type} (m : List (String × α)) (k t : String)
    (v : α) :
    (∃ s, (t, s) ∈ dictSet m k v) ↔ t = k ∨ ∃ s, (t, s) ∈ m := by
  unfold dictSet
  split
  case isTrue hany =>
    constructor
    · rintro ⟨s, hs⟩
      obtain ⟨p, hp, he⟩ := List.mem_map.mp hs
      by_cases hk : p.1 == k
      · rw [if_pos hk] at he
        left
        have : t = k := congrArg Prod.fst he.symm
        exact this
      · rw [if_neg hk] at he
        right
        exact ⟨s, he ▸ hp⟩
    · rintro (rfl | ⟨s, hs⟩)
      · obtain ⟨p, hp, hpk⟩ := List.any_eq_true.mp hany
        refine ⟨v, List.mem_map.mpr ⟨p, hp, ?_⟩⟩
        rw [if_pos hpk]
      · by_cases hk : t = k
        · subst hk
          refine ⟨v, List.mem_map.mpr ⟨(t, s), hs, ?_⟩⟩
          rw [if_pos (by simp)]
        · refine ⟨s, List.mem_map.mpr ⟨(t, s), hs, ?_⟩⟩
          rw [if_neg (by simpa using hk)]
  case isFalse hany =>
    constructor
    · rintro ⟨s, hs⟩
      rcases List.mem_append.mp hs with h | h
      · exact Or.inr ⟨s, h⟩
      · simp only [List.mem_singleton, Prod.mk.injEq] at h
        exact Or.inl h.1
    · rintro (rfl | ⟨s, hs⟩)
      · exact ⟨v, List.mem_append.mpr (Or.inr (by simp))⟩
      · exact ⟨s, List.mem_append.mpr (Or.inl hs)⟩

theorem detect_signals_cache_indep (i d : Option (List Bar)) (t : String)
    (c c' : ZoneCache) :
    (detect_stop_hunt i d t c).1 = (detect_stop_hunt i d t c').1 := by
  unfold detect_stop_hunt identify_liquidity_pools
  cases h1 : get_data i <;> cases h2 : get_data d <;> simp [h1, h2]

theorem scan_go_mem (iF dF : String → Option (List Bar)) (t : String)
    (c0 : ZoneCache) :
    ∀ (ts : List String) (res : List (String × List Signal)) (c : ZoneCache),
      (∃ s, (t, s) ∈ (scan_go iF dF ts res c).1) ↔
        ((∃ s, (t, s) ∈ res) ∨
          (t ∈ ts ∧ (detect_stop_hunt (iF t) (dF t) t c0).1 ≠ [])) := by
  intro ts
  induction ts with
  | nil =>
      intro res c
      simp [scan_go]
  | cons hd tl ih =>
      intro res c
      simp only [scan_go]
      rw [ih]
      have hind : (detect_stop_hunt (iF hd) (dF hd) hd c).1 =
          (detect_stop_hunt (iF hd) (dF hd) hd c0).1 :=
        detect_signals_cache_indep _ _ _ _ _
      by_cases hs : (detect_stop_hunt (iF hd) (dF hd) hd c).1 = []
      · rw [if_pos hs]
        have hhd : t = hd → (detect_stop_hunt (iF t) (dF t) t c0).1 = [] := by
          rintro rfl
          rw [← hind]
          exact hs
        simp only [List.mem_cons]
        constructor
        · rintro (h | ⟨hm, hne⟩)
          · exact Or.inl h
          · exact Or.inr ⟨Or.inr hm, hne⟩
        · rintro (h | ⟨hm | hm, hne⟩)
          · exact Or.inl h
          · exact absurd (hhd hm) hne
          · exact Or.inr ⟨hm, hne⟩
      · rw [if_neg hs]
        rw [mem_dictSet_key]
        have hhd : t = hd → (detect_stop_hunt (iF t) (dF t) t c0).1 ≠ [] := by
          rintro rfl
          rw [← hind]
          exact hs
        simp only [List.mem_cons]
        constructor
        · rintro ((rfl | h) | ⟨hm, hne⟩)
          · exact Or.inr ⟨Or.inl rfl, hhd rfl⟩
          · exact Or.inl h
          · exact Or.inr ⟨Or.inr hm, hne⟩
        · rintro (h | ⟨hm | hm, hne⟩)
          · exact Or.inl (Or.inr h)
          · exact Or.inl (Or.inl hm)
          · exact Or.inr ⟨hm, hne⟩

theorem list_sum_map_mul (l : List Bar) (v : ℚ) (f : Bar → ℚ) :
    (l.map (fun b => v * f b)).sum = v * (l.map f).sum := by
  induction l with
  | nil => simp
  | cons b bs ih =>
      simp only [List.map_cons, List.sum_cons, ih]
      ring

theorem list_sum_map_const (l : List Bar) (v : ℚ) :
    (l.map (fun _ => v)).sum = (l.length : ℚ) * v := by
  induction l with
  | nil => simp
  | cons b bs ih =>
      simp only [List.map_cons, List.sum_cons, ih, List.length_cons]
      push_cast
      ring

theorem find_volume_clusters_round (bars : List Bar) (x : ℚ)
    (hx : x ∈ _find_volume_clusters bars) :
    ∃ y, minLow bars ≤ y ∧ y ≤ maxHigh bars ∧ x = round2 y := by
  unfold _find_volume_clusters at hx
  dsimp only at hx
  by_cases hlt : maxHigh bars < minLow bars
  · rw [if_pos hlt] at hx
    simp at hx
  · rw [if_neg hlt] at hx
    obtain ⟨i, him, hxe⟩ := List.mem_map.mp hx
    have hi19 : i < 19 := by
      have h1 := mem_np_argsort (List.mem_of_mem_drop him)
      rwa [np_histogram_length, np_linspace_length] at h1
    rw [np_linspace20_getD_eq _ _ i (by omega)] at hxe
    obtain ⟨hl, hr⟩ := spec_bin_edge_bounds (minLow bars) (maxHigh bars) i
      (le_of_not_lt hlt) (by omega)
    exact ⟨spec_bin_edge (minLow bars) (maxHigh bars) i, hl, hr, hxe.symm⟩

theorem degenerate_clusters (bars : List Bar)
    (hdeg : minLow bars = maxHigh bars) :
    _find_volume_clusters bars = List.replicate 3 (round2 (minLow bars)) := by
  unfold _find_volume_clusters
  dsimp only
  rw [if_neg (by rw [← hdeg]; exact lt_irrefl _)]
  rw [List.eq_replicate]
  constructor
  · rw [List.length_map, List.length_drop, length_np_argsort,
      np_histogram_length, np_linspace_length]
  · intro x hx
    obtain ⟨i, him, hxe⟩ := List.mem_map.mp hx
    have hi19 : i < 19 := by
      have h1 := mem_np_argsort (List.mem_of_mem_drop him)
      rwa [np_histogram_length, np_linspace_length] at h1
    rw [np_linspace20_getD_eq _ _ i (by omega)] at hxe
    rw [← hxe]
    congr 1
    unfold spec_bin_edge
    rw [← hdeg]
    ring

set_option maxHeartbeats 1000000 in
theorem scenario_b_eval :
    evaluate_signals (identify_zone scenario_window) scenario_b_intraday =
      [scenario_b_signal] := by
  norm_num [evaluate_signals, identify_zone, scenario_window, scenario_b_intraday,
    scenario_b_signal, bearSignalOf, bullSignalOf, minLow, maxHigh,
    _calculate_vwap, listMean, confidenceOf, _calculate_confidence, logReturns,
    closeRatios, percentileofscore, retLt, retLe, round2, roundHalfEven,
    Int.fract]

/-! ## Claim theorems -/

/-- C1: the detector emits a BearTrap signal iff the latest intraday bar
has Low ≤ recentLow × 1.005, Close > recentLow and
Volume > meanVolume × 1.8; when it fires, entry = round2 Close,
stop = round2 (recentLow × 0.995), target = round2 vwap and
confidence = min(90, score(intraday, down) × 100); and Scenario B yields
exactly one BearTrap signal, with stop = 97.51. -/
theorem C1_bear_trap_detection (lz : LiquidityZone) (intraday : List Bar)
    (current : Bar) (hlast : intraday.getLast? = some current) :
    ((∃ s ∈ evaluate_signals lz intraday, s.type = SignalType.bear_trap) ↔
      (current.low ≤ lz.recent_low * (1005/1000) ∧
        lz.recent_low < current.close ∧
        listMean (intraday.map Bar.volume) * (18/10) < current.volume))
    ∧ (∀ s ∈ evaluate_signals lz intraday, s.type = SignalType.bear_trap →
        s.entry = round2 current.close ∧
        s.stop = round2 (lz.recent_low * (995/1000)) ∧
        s.target = round2 lz.vwap ∧
        ∃ q, _calculate_confidence (intraday.map Bar.close) Direction.down =
            some q ∧ s.confidence = min 90 (q * 100))
    ∧ (evaluate_signals (identify_zone scenario_window) scenario_b_intraday =
        [scenario_b_signal]
      ∧ scenario_b_signal.type = SignalType.bear_trap
      ∧ scenario_b_signal.stop = 9751/100) := by
  refine ⟨?_, ?_, scenario_b_eval, rfl, rfl⟩
  · constructor
    · rintro ⟨s, hs, ht⟩
      rcases (mem_evaluate_signals lz intraday current hlast s).mp hs with
        ⟨hc, rfl⟩ | ⟨hc, rfl⟩
      · exact hc
      · exact absurd ht (by simp [bullSignalOf])
    · intro hc
      exact ⟨bearSignalOf lz intraday current,
        (mem_evaluate_signals lz intraday current hlast _).mpr
          (Or.inl ⟨hc, rfl⟩), rfl⟩
  · intro s hs ht
    rcases (mem_evaluate_signals lz intraday current hlast s).mp hs with
      ⟨hc, rfl⟩ | ⟨hc, rfl⟩
    · refine ⟨rfl, rfl, rfl, ?_⟩
      have hne : intraday.map Bar.close ≠ [] := by
        have : intraday ≠ [] := by
          intro he
          rw [he] at hlast
          exact absurd hlast (by simp)
        simpa [List.map_eq_nil]
      obtain ⟨q, hq, heq⟩ :=
        calculate_confidence_isSome (intraday.map Bar.close) .down hne
      exact ⟨q, hq, heq⟩
    · exact absurd ht (by simp [bullSignalOf])

/-- Witness for C1: the theorem applied at the Scenario B zone and series
gives the single bear-trap signal with stop 97.51. -/
theorem C1_bear_trap_detection_witness :
    evaluate_signals (identify_zone scenario_window) scenario_b_intraday =
      [scenario_b_signal]
    ∧ scenario_b_signal.type = SignalType.bear_trap
    ∧ scenario_b_signal.stop = 9751/100 :=
  (C1_bear_trap_detection (identify_zone scenario_window) scenario_b_intraday
    ⟨983/10, 995/10, 99, 15000⟩ rfl).2.2

/-- C5: the detector returns 0, 1 or 2 signals, the two trap conditions
being evaluated independently; a BullTrap signal is emitted iff
High ≥ recentHigh × 0.995, Close < recentHigh and
Volume > meanVolume × 1.8, and it then carries entry = round2 Close,
stop = round2 (recentHigh × 1.005), target = round2 vwap and
confidence = min(90, score(intraday, up) × 100). -/
theorem C5_bull_trap_detection (lz : LiquidityZone) (intraday : List Bar)
    (current : Bar) (hlast : intraday.getLast? = some current) :
    (evaluate_signals lz intraday).length ≤ 2
    ∧ ((∃ s ∈ evaluate_signals lz intraday, s.type = SignalType.bull_trap) ↔
        (lz.recent_high * (995/1000) ≤ current.high ∧
          current.close < lz.recent_high ∧
          listMean (intraday.map Bar.volume) * (18/10) < current.volume))
    ∧ (∀ s ∈ evaluate_signals lz intraday, s.type = SignalType.bull_trap →
        s.entry = round2 current.close ∧
        s.stop = round2 (lz.recent_high * (1005/1000)) ∧
        s.target = round2 lz.vwap ∧
        ∃ q, _calculate_confidence (intraday.map Bar.close) Direction.up =
            some q ∧ s.confidence = min 90 (q * 100)) := by
  refine ⟨?_, ?_, ?_⟩
  · rw [evaluate_signals_eq lz intraday current hlast]
    split_ifs <;> simp
  · constructor
    · rintro ⟨s, hs, ht⟩
      rcases (mem_evaluate_signals lz intraday current hlast s).mp hs with
        ⟨hc, rfl⟩ | ⟨hc, rfl⟩
      · exact absurd ht (by simp [bearSignalOf])
      · exact hc
    · intro hc
      exact ⟨bullSignalOf lz intraday current,
        (mem_evaluate_signals lz intraday current hlast _).mpr
          (Or.inr ⟨hc, rfl⟩), rfl⟩
  · intro s hs ht
    rcases (mem_evaluate_signals lz intraday current hlast s).mp hs with
      ⟨hc, rfl⟩ | ⟨hc, rfl⟩
    · exact absurd ht (by simp [bearSignalOf])
    · refine ⟨rfl, rfl, rfl, ?_⟩
      have hne : intraday.map Bar.close ≠ [] := by
        have : intraday ≠ [] := by
          intro he
          rw [he] at hlast
          exact absurd hlast (by simp)
        simpa [List.map_eq_nil]
      obtain ⟨q, hq, heq⟩ :=
        calculate_confidence_isSome (intraday.map Bar.close) .up hne
      exact ⟨q, hq, heq⟩

/-- Witness for C5: at the Scenario A/B zone with a bull-trap intraday
series, the bull-trap condition holds, so a BullTrap signal is emitted. -/
theorem C5_bull_trap_detection_witness :
    ∃ s ∈ evaluate_signals (identify_zone scenario_window)
        scenario_bull_intraday, s.type = SignalType.bull_trap :=
  ((C5_bull_trap_detection (identify_zone scenario_window)
      scenario_bull_intraday ⟨105, 1066/10, 106, 15000⟩ rfl).2.1).mpr
    (by norm_num [identify_zone, maxHigh, minLow, scenario_window,
      scenario_bull_intraday, listMean])

/-- C7: every signal the detector emits has its confidence in [0, 90]. -/
theorem C7_confidence_in_range (lz : LiquidityZone) (intraday : List Bar)
    (s : Signal) (hs : s ∈ evaluate_signals lz intraday) :
    0 ≤ s.confidence ∧ s.confidence ≤ 90 := by
  cases hlast : intraday.getLast? with
  | none =>
      rw [evaluate_signals_none lz intraday hlast] at hs
      simp at hs
  | some current =>
      rcases (mem_evaluate_signals lz intraday current hlast s).mp hs with
        ⟨_, rfl⟩ | ⟨_, rfl⟩
      · exact confidenceOf_bounds _ _
      · exact confidenceOf_bounds _ _

/-- Witness for C7: the Scenario B signal is emitted and its confidence
lies in [0, 90]. -/
theorem C7_confidence_in_range_witness :
    0 ≤ scenario_b_signal.confidence ∧ scenario_b_signal.confidence ≤ 90 :=
  C7_confidence_in_range (identify_zone scenario_window) scenario_b_intraday
    scenario_b_signal (by rw [scenario_b_eval]; exact List.mem_singleton_self _)

/-- C3 (code evidence): on a one-bar series the scorer silently returns a
numeric confidence (0 for down, 1 for up, from the percentile of the NaN
return) instead of failing; only the empty series produces an error (the
IndexError of indexing the last return, embedded as `none`). -/
theorem C3_one_bar_scorer_returns_value :
    _calculate_confidence [100] Direction.down = some 0
    ∧ _calculate_confidence [100] Direction.up = some 1
    ∧ _calculate_confidence [] Direction.down = none := by
  norm_num [_calculate_confidence, logReturns, closeRatios, percentileofscore,
    retLt, retLe]

/-- C9: vwap equals Σ(volume·(High+Low+Close)/3) / Σ(volume); with zero
total volume the division by zero yields the junk value (the ℚ stand-in
for the float NaN) rather than an error; and with uniform volume weights
vwap equals the mean of the typical prices (High+Low+Close)/3. -/
theorem C9_vwap_formula (bars : List Bar) (v : ℚ) :
    (_calculate_vwap bars =
      (bars.map (fun b => b.volume * (b.high + b.low + b.close) / 3)).sum /
        (bars.map Bar.volume).sum)
    ∧ ((bars.map Bar.volume).sum = 0 → _calculate_vwap bars = 0)
    ∧ (bars ≠ [] → (∀ b ∈ bars, b.volume = v) → v ≠ 0 →
        _calculate_vwap bars =
          (bars.map (fun b => (b.high + b.low + b.close) / 3)).sum /
            (bars.length : ℚ)) := by
  refine ⟨rfl, ?_, ?_⟩
  · intro h
    unfold _calculate_vwap
    rw [h, div_zero]
  · intro _ hv hvne
    unfold _calculate_vwap
    have h1 : bars.map (fun b => b.volume * (b.high + b.low + b.close) / 3) =
        bars.map (fun b => v * ((b.high + b.low + b.close) / 3)) :=
      List.map_congr_left (fun b hb => by rw [hv b hb]; ring)
    have h2 : bars.map Bar.volume = bars.map (fun _ => v) :=
      List.map_congr_left (fun b hb => hv b hb)
    rw [h1, h2, list_sum_map_mul, list_sum_map_const,
      mul_comm ((bars.length : ℚ)) v, mul_div_mul_left _ _ hvne]

/-- Witness for C9: two bars of uniform volume 5; the vwap equals the
mean of the typical prices, here 7/2. -/
theorem C9_vwap_formula_witness :
    _calculate_vwap vwap_example_bars =
      (vwap_example_bars.map (fun b => (b.high + b.low + b.close) / 3)).sum /
        (vwap_example_bars.length : ℚ) :=
  (C9_vwap_formula vwap_example_bars 5).2.2 (by simp [vwap_example_bars])
    (by simp [vwap_example_bars]) (by norm_num)

set_option maxHeartbeats 4000000 in
set_option maxRecDepth 8000 in
/-- C2 (counterexample): on a concrete window the code reports the
*lower* edges of the 3 highest-volume bins of a *19*-bin partition
([0, 5, 10]), whereas the claim describes upper edges of a 20-bin
partition ([0.95, 5.7, 11.4]). -/
theorem C2_clusters_counterexample :
    _find_volume_clusters cluster_example_bars = [0, 5, 10]
    ∧ claimed_volume_clusters cluster_example_bars = [19/20, 57/10, 57/5]
    ∧ _find_volume_clusters cluster_example_bars ≠
        claimed_volume_clusters cluster_example_bars := by
  have h1 : _find_volume_clusters cluster_example_bars = [0, 5, 10] := by
    norm_num [cluster_example_bars, _find_volume_clusters, minLow, maxHigh,
      np_linspace, np_histogram, inBin, np_argsort, insertAsc, List.range_succ,
      round2, roundHalfEven]
  have h2 : claimed_volume_clusters cluster_example_bars =
      [19/20, 57/10, 57/5] := by
    norm_num [cluster_example_bars, claimed_volume_clusters, minLow, maxHigh,
      np_argsort, insertAsc, List.range_succ, round2, roundHalfEven]
  refine ⟨h1, h2, ?_⟩
  rw [h1, h2]
  norm_num

/-- C2 (amended): for every window, the clustering partitions
[recentLow, recentHigh] into 19 equal-width bins (np.linspace with 20
points yields 19 bins), accumulates per-bin the summed Volume of the bars
whose Close falls in the bin (half-open bins, last bin closed), selects
the 3 bins with highest accumulated volume, and reports the *lower* edge
of each selected bin rounded to 2 decimals, ordered from lowest to
highest accumulated volume. -/
theorem C2_clusters_19_bins_lower_edges (bars : List Bar) :
    _find_volume_clusters bars = amended_volume_clusters bars := by
  unfold _find_volume_clusters amended_volume_clusters
  dsimp only
  by_cases hlt : maxHigh bars < minLow bars
  · rw [if_pos hlt, if_pos hlt]
  · rw [if_neg hlt, if_neg hlt, np_histogram20_eq]
    have hlen : (np_histogram bars (np_linspace (minLow bars) (maxHigh bars) 20)).length - 3 = 16 := by
      rw [np_histogram_length, np_linspace_length]
    rw [np_histogram20_eq] at hlen
    rw [hlen]
    apply List.map_congr_left
    intro i him
    have hi19 : i < 19 := by
      have h1 := mem_np_argsort (List.mem_of_mem_drop him)
      rwa [List.length_map, List.length_range] at h1
    rw [np_linspace20_getD_eq _ _ i (by omega)]

/-- C4 (counterexample): on the degenerate single-bar window with
High = Low = Close = 5, `identify` does not fail but the returned
`volumeClusterLevels` is `[5, 5, 5]`, not the empty list the claim
states: numpy accepts the all-equal edge list and puts the whole volume
in the closed last bin. -/
theorem C4_degenerate_counterexample :
    (identify_liquidity_pools (some degenerate_bars) "X" []).1 =
      some (identify_zone degenerate_bars)
    ∧ (identify_zone degenerate_bars).high_volume_nodes = [5, 5, 5]
    ∧ (identify_zone degenerate_bars).high_volume_nodes ≠ [] := by
  refine ⟨rfl, ?_, ?_⟩
  · norm_num [identify_zone, degenerate_bars, _find_volume_clusters, minLow,
      maxHigh, np_linspace, np_histogram, inBin, np_argsort, insertAsc,
      List.range_succ, round2, roundHalfEven]
  · have h : (identify_zone degenerate_bars).high_volume_nodes = [5, 5, 5] := by
      norm_num [identify_zone, degenerate_bars, _find_volume_clusters, minLow,
        maxHigh, np_linspace, np_histogram, inBin, np_argsort, insertAsc,
        List.range_succ, round2, roundHalfEven]
    rw [h]
    simp

/-- C4 (amended): on any non-empty window with recentLow = recentHigh,
`identify` does not fail; it returns a zone whose `volumeClusterLevels`
is three copies of the rounded constant price (every bin edge equals the
constant, so the three selected bins all report it). -/
theorem C4_degenerate_range_clusters (bars : List Bar) (t : String)
    (c : ZoneCache) (hne : bars ≠ []) (hdeg : minLow bars = maxHigh bars) :
    ∃ z, (identify_liquidity_pools (some bars) t c).1 = some z ∧
      z.high_volume_nodes = List.replicate 3 (round2 (minLow bars)) := by
  obtain ⟨b, bs, rfl⟩ := List.exists_cons_of_ne_nil hne
  refine ⟨identify_zone (b :: bs), rfl, ?_⟩
  show _find_volume_clusters (b :: bs) = _
  exact degenerate_clusters (b :: bs) hdeg

/-- Witness for C4 (amended): at the degenerate single-bar window the
zone is returned without failing and carries [5, 5, 5]. -/
theorem C4_degenerate_range_clusters_witness :
    ∃ z, (identify_liquidity_pools (some degenerate_bars) "X" []).1 =
        some z ∧
      z.high_volume_nodes = List.replicate 3 (round2 (minLow degenerate_bars)) :=
  C4_degenerate_range_clusters degenerate_bars "X" [] (by simp [degenerate_bars])
    (by norm_num [minLow, maxHigh, degenerate_bars])

theorem round2_up (q : ℚ) (n : ℤ) (hfl : ⌊q * 100⌋ = n)
    (hr : 1/2 < q * 100 - (n : ℚ)) : round2 q = ((n : ℚ) + 1) / 100 := by
  unfold round2 roundHalfEven
  rw [hfl]
  rw [if_neg (by push_neg; linarith), if_pos hr]
  push_cast
  ring

set_option maxHeartbeats 4000000 in
set_option maxRecDepth 8000 in
/-- C8 (counterexample): on the window [1.006, 1.007] the three reported
cluster levels all round to 1.01, which exceeds recentHigh = 1.007 — the
2-decimal rounding pushes every level outside [recentLow, recentHigh]. -/
theorem C8_rounded_level_outside_range :
    (identify_zone rounding_bars).recent_low = 1006/1000
    ∧ (identify_zone rounding_bars).recent_high = 1007/1000
    ∧ (identify_zone rounding_bars).high_volume_nodes =
        [101/100, 101/100, 101/100]
    ∧ ¬ (∀ x ∈ (identify_zone rounding_bars).high_volume_nodes,
          (identify_zone rounding_bars).recent_low ≤ x ∧
            x ≤ (identify_zone rounding_bars).recent_high) := by
  have h1 : round2 ((19131 : ℚ)/19000) = 101/100 := by
    rw [round2_up ((19131 : ℚ)/19000) 100 (by rw [Int.floor_eq_iff] <;> norm_num)
      (by norm_num)]
    norm_num
  have h2 : round2 ((4783 : ℚ)/4750) = 101/100 := by
    rw [round2_up ((4783 : ℚ)/4750) 100 (by rw [Int.floor_eq_iff] <;> norm_num)
      (by norm_num)]
    norm_num
  have h3 : round2 ((19123 : ℚ)/19000) = 101/100 := by
    rw [round2_up ((19123 : ℚ)/19000) 100 (by rw [Int.floor_eq_iff] <;> norm_num)
      (by norm_num)]
    norm_num
  have hnodes : (identify_zone rounding_bars).high_volume_nodes =
      [101/100, 101/100, 101/100] := by
    norm_num [identify_zone, rounding_bars, _find_volume_clusters, minLow,
      maxHigh, np_linspace, np_histogram, inBin, np_argsort, insertAsc,
      List.range_succ, h1, h2, h3]
  refine ⟨rfl, rfl, hnodes, ?_⟩
  intro hall
  have := (hall (101/100) (by rw [hnodes]; simp)).2
  have hhigh : (identify_zone rounding_bars).recent_high = 1007/1000 := rfl
  rw [hhigh] at this
  norm_num at this

/-- C8 (amended): for every non-empty window the zone satisfies
recentLow = min Low, recentHigh = max High, at most 3 cluster levels, and
every cluster level is the 2-decimal rounding of a value inside
[recentLow, recentHigh] (the rounded value itself may leave the interval
by at most half a cent). -/
theorem C8_zone_invariants (bars : List Bar) (hne : bars ≠ []) :
    (∀ b ∈ bars, (identify_zone bars).recent_low ≤ b.low ∧
        b.high ≤ (identify_zone bars).recent_high)
    ∧ (∃ b ∈ bars, (identify_zone bars).recent_low = b.low)
    ∧ (∃ b ∈ bars, (identify_zone bars).recent_high = b.high)
    ∧ (identify_zone bars).high_volume_nodes.length ≤ 3
    ∧ (∀ x ∈ (identify_zone bars).high_volume_nodes,
        ∃ y, (identify_zone bars).recent_low ≤ y ∧
          y ≤ (identify_zone bars).recent_high ∧ x = round2 y) := by
  refine ⟨?_, ?_, ?_, find_volume_clusters_length bars, ?_⟩
  · intro b hb
    exact ⟨minLow_le bars b hb, le_maxHigh bars b hb⟩
  · exact minLow_mem bars hne
  · exact maxHigh_mem bars hne
  · intro x hx
    exact find_volume_clusters_round bars x hx

/-- Witness for C8 (amended) at the Scenario A/B window. -/
theorem C8_zone_invariants_witness :
    (identify_zone scenario_window).high_volume_nodes.length ≤ 3 :=
  (C8_zone_invariants scenario_window (by simp [scenario_window])).2.2.2.1

/-- C6: scan contains a symbol iff it was scanned and its signal list is
non-empty; a symbol whose intraday fetch fails (DataUnavailable) is
skipped without affecting the scan of the remaining symbols; and in
Scenario C the result holds only key B, with the single bear-trap
signal. -/
theorem C6_scan_behaviour (iF dF : String → Option (List Bar))
    (tickers : List String) (cache : ZoneCache) (t : String)
    (rest : List String) :
    ((∃ s, (t, s) ∈ (scan_market iF dF tickers cache).1) ↔
      (t ∈ tickers ∧ (detect_stop_hunt (iF t) (dF t) t cache).1 ≠ []))
    ∧ (get_data (iF t) = none →
        scan_market iF dF (t :: rest) cache = scan_market iF dF rest cache)
    ∧ (scan_market fetchIntradayC fetchDailyC ["A", "B"] []).1 =
        [("B", [scenario_b_signal])] := by
  refine ⟨?_, ?_, ?_⟩
  · unfold scan_market
    rw [scan_go_mem iF dF t cache tickers [] cache]
    simp
  · intro h
    unfold scan_market
    simp only [scan_go]
    unfold detect_stop_hunt
    rw [h]
    simp
  · have hBA : ¬ ("B":String) = "A" := by simp
    have hAB : (("A":String) == "B") = false := by simp
    norm_num [hBA, hAB, scan_market, scan_go, detect_stop_hunt,
      identify_liquidity_pools, get_data, fetchIntradayC, fetchDailyC, dictSet,
      evaluate_signals, identify_zone, scenario_window, scenario_b_intraday,
      scenario_b_signal, bearSignalOf, bullSignalOf, minLow, maxHigh,
      _calculate_vwap, listMean, confidenceOf, _calculate_confidence,
      logReturns, closeRatios, percentileofscore, retLt, retLe, round2,
      roundHalfEven]

/-- Witness for C6: in Scenario C, symbol B is in the scan result. -/
theorem C6_scan_behaviour_witness :
    ∃ s, (("B" : String), s) ∈
      (scan_market fetchIntradayC fetchDailyC ["A", "B"] []).1 :=
  ((C6_scan_behaviour fetchIntradayC fetchDailyC ["A", "B"] [] "B" []).1).mpr
    ⟨by simp, by
      intro h
      have h1 : (detect_stop_hunt (fetchIntradayC "B") (fetchDailyC "B") "B"
          []).1 = [scenario_b_signal] := by
        have hBA : ¬ ("B":String) = "A" := by simp
        norm_num [hBA, detect_stop_hunt, identify_liquidity_pools, get_data,
          fetchIntradayC, fetchDailyC, dictSet, evaluate_signals, identify_zone,
          scenario_window, scenario_b_intraday, scenario_b_signal, bearSignalOf,
          bullSignalOf, minLow, maxHigh, _calculate_vwap, listMean,
          confidenceOf, _calculate_confidence, logReturns, closeRatios,
          percentileofscore, retLt, retLe, round2, roundHalfEven]
      rw [h1] at h
      simp at h⟩

/-- C10 (counterexample): running detection on one symbol starting from
the empty cache leaves the cache non-empty: the per-symbol zone cache IS
changed by running detection. -/
theorem C10_cache_mutated_counterexample :
    (detect_stop_hunt (some scenario_b_intraday) (some scenario_window) "B"
      []).2 ≠ [] := by
  simp [detect_stop_hunt, identify_liquidity_pools, get_data,
    scenario_b_intraday, scenario_window, dictSet]

/-- C10 (amended): the emitted signal sequence is a pure function of the
fetched data — identical for identical inputs and independent of the
analyzer state — but the zone cache is updated: it is unchanged when
either fetch fails, and otherwise the freshly recomputed zone overwrites
(or adds) the entry for that symbol. -/
theorem C10_detect_determinism_and_cache (i d : Option (List Bar))
    (t : String) (c₁ c₂ : ZoneCache) :
    (detect_stop_hunt i d t c₁).1 = (detect_stop_hunt i d t c₂).1
    ∧ (get_data i = none → (detect_stop_hunt i d t c₁).2 = c₁)
    ∧ (get_data d = none → (detect_stop_hunt i d t c₁).2 = c₁)
    ∧ (∀ intraday data, get_data i = some intraday → get_data d = some data →
        (detect_stop_hunt i d t c₁).2 = dictSet c₁ t (identify_zone data)) := by
  refine ⟨detect_signals_cache_indep i d t c₁ c₂, ?_, ?_, ?_⟩
  · intro h
    unfold detect_stop_hunt
    rw [h]
  · intro h
    cases h1 : get_data i <;>
      simp [detect_stop_hunt, identify_liquidity_pools, h1, h]
  · intro intraday data h1 h2
    simp [detect_stop_hunt, identify_liquidity_pools, h1, h2]

/-- Witness for C10 (amended): at Scenario B inputs the cache ends as the
singleton holding the recomputed zone for symbol B. -/
theorem C10_detect_determinism_and_cache_witness :
    (detect_stop_hunt (some scenario_b_intraday) (some scenario_window) "B"
        []).2 =
      dictSet [] "B" (identify_zone scenario_window) :=
  (C10_detect_determinism_and_cache (some scenario_b_intraday)
      (some scenario_window) "B" [] []).2.2.2 scenario_b_intraday
    scenario_window rfl rfl
